import Mathlib

/-!
Verification of the `note` repository's memory-allocation code.

The alignment arithmetic is embedded from `src/unnamed/part_002`, which declares
`using u8 = unsigned char` and performs every computation on `u8` operands, so
each store back into a `u8` truncates the (promoted) value modulo 256.  Machine
integers are modelled as `Nat` with the truncations made explicit.

The allocator classes (`LinearAllocator`, `StackAllocator`, `FreeListAllocator`,
`PoolAllocator`, `ProxyAllocator`) are declared in headers under
`src/memory/c-custom-memory-allocation-r3010/code/` and `src/unnamed/part_003`,
but their member-function bodies are not part of the repository; those
operations are modelled from the specification (each such definition is marked
`Modelled from the spec:`).
-/

namespace Note

/-- The value `static_cast<u8>(n)`: truncation to `unsigned char`. -/
def u8c (n : Nat) : Nat := n % 256

/-- The value `static_cast<u8>(a - 1)` for a `u8` operand `a`: the subtraction
is performed after integral promotion and the result truncated to 8 bits,
so `0` maps to `255` and any `1 ≤ a ≤ 255` maps to `a - 1`. -/
def decrement8 (a : Nat) : Nat := (a + 255) % 256

/-- `alignForward` from `src/unnamed/part_002`:
`(address + static_cast<u8>(alignment - 1)) & static_cast<u8>(~(alignment - 1))`.
The complement `~(alignment - 1)` is truncated to 8 bits, so the mask equals
`255 - decrement8 alignment`; in particular the mask clears every bit of the
address at position 8 and above. -/
def alignForward (address alignment : Nat) : Nat :=
  (address + decrement8 (u8c alignment)) &&& (255 - decrement8 (u8c alignment))

/-- `alignForwardAdjustment` from `src/unnamed/part_002`:
`u8 adjustment = alignment - (address & (alignment - 1)); if (adjustment == alignment) return 0; return adjustment;`.
The subtraction is performed on promoted operands and truncated to 8 bits when
stored into the `u8` local `adjustment`. -/
def alignForwardAdjustment (address alignment : Nat) : Nat :=
  let a := u8c alignment
  let adjustment := (a + 256 - (address &&& decrement8 a)) % 256
  if adjustment = a then 0 else adjustment

/-- `alignForwardAdjustmentWithHeader` from `src/unnamed/part_002`:
starts from `alignForwardAdjustment`; if that is smaller than `headerSize`,
adds whole multiples of `alignment` (`alignment * (neededSpace / alignment)`,
plus one more `alignment` when `neededSpace % alignment > 0`), each store
into the `u8` local truncating modulo 256. -/
def alignForwardAdjustmentWithHeader (address alignment headerSize : Nat) : Nat :=
  let a := u8c alignment
  let adjustment := alignForwardAdjustment address a
  let neededSpace := u8c headerSize
  if adjustment < neededSpace then
    let needed := neededSpace - adjustment
    let adjustment2 := u8c (adjustment + a * (needed / a))
    if needed % a > 0 then u8c (adjustment2 + a) else adjustment2
  else adjustment

/-- A bitwise `and` against a mask below 256 only reads the low byte of the
other operand. -/
theorem land_mask_lt_256 (x m : Nat) (hm : m < 256) : x &&& m = (x % 256) &&& m := by
  have h256 : (256 : Nat) = 2 ^ 8 := by norm_num
  apply Nat.eq_of_testBit_eq
  intro i
  rw [h256]
  simp only [Nat.testBit_and, Nat.testBit_mod_two_pow]
  by_cases h : i < 8
  · simp [h]
  · have h2 : (256 : Nat) ≤ 2 ^ i := by
      calc (256 : Nat) = 2 ^ 8 := by norm_num
      _ ≤ 2 ^ i := Nat.pow_le_pow_right (by norm_num) (by omega)
    have hb : Nat.testBit m i = false := Nat.testBit_lt_two_pow (lt_of_lt_of_le hm h2)
    simp [hb, h]

set_option maxRecDepth 10000 in
/-- On single-byte values, masking with `256 - 2^k` clears the `k` low bits. -/
theorem land_upper_mask : ∀ r < 256, ∀ k < 8, r &&& (256 - 2 ^ k) = r - r % 2 ^ k := by
  decide

/-- Powers of two representable in a `u8` are at most 128. -/
theorem pow_le_128 (k : Nat) (hk : k ≤ 7) : 2 ^ k ≤ 128 := by
  calc 2 ^ k ≤ 2 ^ 7 := Nat.pow_le_pow_right (by norm_num) hk
  _ = 128 := by norm_num

/-- For a power-of-two alignment representable in a `u8`, `alignForwardAdjustment`
computes the distance from the address to the next alignment boundary. -/
theorem alignForwardAdjustment_eq (addr k : Nat) (hk : k ≤ 7) :
    alignForwardAdjustment addr (2 ^ k) = (2 ^ k - addr % 2 ^ k) % 2 ^ k := by
  have h128 : 2 ^ k ≤ 128 := pow_le_128 k hk
  have hpos : 0 < 2 ^ k := Nat.pos_pow_of_pos k (by norm_num)
  have hu : u8c (2 ^ k) = 2 ^ k := by unfold u8c; omega
  have hdec : decrement8 (2 ^ k) = 2 ^ k - 1 := by unfold decrement8; omega
  have hland : addr &&& (2 ^ k - 1) = addr % 2 ^ k :=
    Nat.and_pow_two_sub_one_eq_mod addr k
  have hr : addr % 2 ^ k < 2 ^ k := Nat.mod_lt _ hpos
  unfold alignForwardAdjustment
  simp only [hu, hdec, hland]
  generalize hN : 2 ^ k = N at *
  by_cases h0 : addr % N = 0
  · rw [h0]
    have h1 : (N + 256 - 0) % 256 = N := by omega
    rw [h1, if_pos rfl, Nat.sub_zero, Nat.mod_self]
  · have hlt : (N + 256 - addr % N) % 256 = N - addr % N := by omega
    rw [hlt]
    have hne : ¬ (N - addr % N = N) := by omega
    rw [if_neg hne]
    exact (Nat.mod_eq_of_lt (by omega)).symm

/-- `alignForwardAdjustment` lands on an alignment boundary, is smaller than
the alignment, and is zero on an already-aligned address. -/
theorem alignForwardAdjustment_spec (addr k : Nat) (hk : k ≤ 7) :
    (addr + alignForwardAdjustment addr (2 ^ k)) % 2 ^ k = 0 ∧
    alignForwardAdjustment addr (2 ^ k) < 2 ^ k ∧
    (addr % 2 ^ k = 0 → alignForwardAdjustment addr (2 ^ k) = 0) := by
  have hpos : 0 < 2 ^ k := Nat.pos_pow_of_pos k (by norm_num)
  rw [alignForwardAdjustment_eq addr k hk]
  have hr : addr % 2 ^ k < 2 ^ k := Nat.mod_lt _ hpos
  have hdm : 2 ^ k * (addr / 2 ^ k) + addr % 2 ^ k = addr := Nat.div_add_mod addr (2 ^ k)
  refine ⟨?_, ?_, ?_⟩
  · by_cases h0 : addr % 2 ^ k = 0
    · rw [h0, Nat.sub_zero, Nat.mod_self, Nat.add_zero, h0]
    · have h1 : (2 ^ k - addr % 2 ^ k) % 2 ^ k = 2 ^ k - addr % 2 ^ k :=
        Nat.mod_eq_of_lt (by omega)
      rw [h1]
      have h2 : addr + (2 ^ k - addr % 2 ^ k) = 2 ^ k * (addr / 2 ^ k) + 2 ^ k := by omega
      rw [h2]
      have h3 : 2 ^ k * (addr / 2 ^ k) + 2 ^ k = 2 ^ k * (addr / 2 ^ k + 1) := by ring
      rw [h3]
      exact Nat.mul_mod_right _ _
  · exact Nat.mod_lt _ hpos
  · intro h0
    rw [h0]
    simp [Nat.mod_self]

/-- C2: for every address and u8 power-of-two alignment,
`alignForwardAdjustment` returns the number of bytes to add to the address to
reach the next alignment boundary, and returns 0 when already aligned. -/
theorem c2_alignForwardAdjustment_correct (addr k : Nat) (hk : k ≤ 7) :
    (addr + alignForwardAdjustment addr (2 ^ k)) % 2 ^ k = 0 ∧
    alignForwardAdjustment addr (2 ^ k) < 2 ^ k ∧
    (addr % 2 ^ k = 0 → alignForwardAdjustment addr (2 ^ k) = 0) :=
  alignForwardAdjustment_spec addr k hk

/-- C2 witness: address 5, alignment 4 (adjustment 3). -/
theorem c2_witness :
    (5 + alignForwardAdjustment 5 (2 ^ 2)) % 2 ^ 2 = 0 ∧
    alignForwardAdjustment 5 (2 ^ 2) < 2 ^ 2 ∧
    (5 % 2 ^ 2 = 0 → alignForwardAdjustment 5 (2 ^ 2) = 0) :=
  c2_alignForwardAdjustment_correct 5 2 (by decide)

/-- `alignForward` computes the mathematical round-up reduced modulo 256:
the 8-bit mask clears every address bit at position 8 and above. -/
theorem alignForward_eq (addr k : Nat) (hk : k ≤ 7) :
    alignForward addr (2 ^ k) = 2 ^ k * ((addr + 2 ^ k - 1) / 2 ^ k) % 256 := by
  have h128 : 2 ^ k ≤ 128 := pow_le_128 k hk
  have hpos : 0 < 2 ^ k := Nat.pos_pow_of_pos k (by norm_num)
  have hu : u8c (2 ^ k) = 2 ^ k := by unfold u8c; omega
  have hdec : decrement8 (2 ^ k) = 2 ^ k - 1 := by unfold decrement8; omega
  unfold alignForward
  simp only [hu, hdec]
  have hmask : 255 - (2 ^ k - 1) = 256 - 2 ^ k := by omega
  have harg : addr + (2 ^ k - 1) = addr + 2 ^ k - 1 := by omega
  rw [hmask, harg]
  have hmlt : 256 - 2 ^ k < 256 := by omega
  rw [land_mask_lt_256 _ _ hmlt]
  have hx : (addr + 2 ^ k - 1) % 256 < 256 := Nat.mod_lt _ (by norm_num)
  rw [land_upper_mask _ hx k (by omega)]
  set x := addr + 2 ^ k - 1 with hxdef
  have hdvd : 2 ^ k ∣ 256 := by
    refine ⟨2 ^ (8 - k), ?_⟩
    rw [← pow_add]
    have h8 : k + (8 - k) = 8 := by omega
    rw [h8]
    norm_num
  have hmm2 : x % 256 % 2 ^ k = x % 2 ^ k := Nat.mod_mod_of_dvd x hdvd
  rw [hmm2]
  have hdm : 2 ^ k * (x / 2 ^ k) + x % 2 ^ k = x := Nat.div_add_mod x (2 ^ k)
  have hdm8 : 256 * (x / 256) + x % 256 = x := Nat.div_add_mod x 256
  have hr : x % 256 < 256 := Nat.mod_lt _ (by norm_num)
  have hrk : x % 2 ^ k ≤ x % 256 := by
    rw [← hmm2]
    exact Nat.mod_le _ _
  omega

/-- C1 counterexample: at address 256 with alignment 4, `alignForward` returns
0, which is not an address greater than or equal to the input. -/
theorem c1_counterexample :
    alignForward 256 4 = 0 ∧ ¬ 256 ≤ alignForward 256 4 := by decide

/-- C1 (amended): `alignForward` returns the smallest aligned address that is
greater than or equal to the input, reduced modulo 256; it equals that smallest
aligned address itself exactly on the inputs whose rounded-up address still
fits in one byte (in particular whenever `address + alignment ≤ 256`). -/
theorem c1_alignForward_amended (addr k : Nat) (hk : k ≤ 7) :
    alignForward addr (2 ^ k) = 2 ^ k * ((addr + 2 ^ k - 1) / 2 ^ k) % 256 ∧
    (addr + 2 ^ k ≤ 256 →
      addr ≤ alignForward addr (2 ^ k) ∧
      alignForward addr (2 ^ k) % 2 ^ k = 0 ∧
      alignForward addr (2 ^ k) < addr + 2 ^ k) := by
  have heq := alignForward_eq addr k hk
  have hpos : 0 < 2 ^ k := Nat.pos_pow_of_pos k (by norm_num)
  refine ⟨heq, fun hfit => ?_⟩
  rw [heq]
  set y := addr + 2 ^ k - 1 with hydef
  have hdm : 2 ^ k * (y / 2 ^ k) + y % 2 ^ k = y := Nat.div_add_mod y (2 ^ k)
  have hmlt : y % 2 ^ k < 2 ^ k := Nat.mod_lt _ hpos
  have hRle : 2 ^ k * (y / 2 ^ k) ≤ y := by omega
  have hR256 : 2 ^ k * (y / 2 ^ k) % 256 = 2 ^ k * (y / 2 ^ k) :=
    Nat.mod_eq_of_lt (by omega)
  rw [hR256]
  refine ⟨by omega, ?_, by omega⟩
  exact Nat.mul_mod_right _ _

/-- C1 witness: address 5, alignment 4 rounds up to 8. -/
theorem c1_witness :
    5 ≤ alignForward 5 (2 ^ 2) ∧
    alignForward 5 (2 ^ 2) % 2 ^ 2 = 0 ∧
    alignForward 5 (2 ^ 2) < 5 + 2 ^ 2 :=
  (c1_alignForward_amended 5 2 (by decide)).2 (by decide)

/-- The adjustment-with-header value prescribed by the specification: the
naive adjustment when it already accommodates the header, otherwise the naive
adjustment rounded up by whole multiples of the alignment until it does.
Written from the specification's words for comparison with the code. -/
def mathAdjustmentWithHeader (addr a h : Nat) : Nat :=
  let naive := (a - addr % a) % a
  if h ≤ naive then naive
  else naive + a * ((h - naive + a - 1) / a)

/-- Case analysis of `alignForwardAdjustmentWithHeader`: on the
already-roomy branch it returns the naive adjustment; otherwise it returns the
naive adjustment plus `alignment * ceil((headerSize - naive) / alignment)`,
truncated modulo 256. -/
theorem afawh_cases (addr k h : Nat) (hk : k ≤ 7) (hh : h < 256) :
    (h ≤ alignForwardAdjustment addr (2 ^ k) ∧
      alignForwardAdjustmentWithHeader addr (2 ^ k) h =
        alignForwardAdjustment addr (2 ^ k)) ∨
    (alignForwardAdjustment addr (2 ^ k) < h ∧
      alignForwardAdjustmentWithHeader addr (2 ^ k) h =
        (alignForwardAdjustment addr (2 ^ k)
          + 2 ^ k * ((h - alignForwardAdjustment addr (2 ^ k) + 2 ^ k - 1) / 2 ^ k))
          % 256) := by
  have h128 : 2 ^ k ≤ 128 := pow_le_128 k hk
  have hpos : 0 < 2 ^ k := Nat.pos_pow_of_pos k (by norm_num)
  have hu : u8c (2 ^ k) = 2 ^ k := by unfold u8c; omega
  have huh : u8c h = h := by unfold u8c; omega
  have hafa : alignForwardAdjustment addr (u8c (2 ^ k)) =
      alignForwardAdjustment addr (2 ^ k) := by rw [hu]
  unfold alignForwardAdjustmentWithHeader
  simp only [hafa, hu, huh]
  set naive := alignForwardAdjustment addr (2 ^ k) with hnaive
  by_cases hcase : naive < h
  · right
    refine ⟨hcase, ?_⟩
    rw [if_pos hcase]
    set needed := h - naive with hneeded
    have hdm : 2 ^ k * (needed / 2 ^ k) + needed % 2 ^ k = needed :=
      Nat.div_add_mod needed (2 ^ k)
    have hrlt : needed % 2 ^ k < 2 ^ k := Nat.mod_lt _ hpos
    have hsplit : needed + 2 ^ k - 1 = 2 ^ k * (needed / 2 ^ k) + (needed % 2 ^ k + 2 ^ k - 1) := by
      omega
    have hceil : (needed + 2 ^ k - 1) / 2 ^ k =
        needed / 2 ^ k + (needed % 2 ^ k + 2 ^ k - 1) / 2 ^ k := by
      rw [hsplit, Nat.mul_add_div hpos]
    by_cases hrz : needed % 2 ^ k = 0
    · rw [if_neg (by omega)]
      have h0 : (needed % 2 ^ k + 2 ^ k - 1) / 2 ^ k = 0 := by
        apply Nat.div_eq_of_lt
        omega
      rw [hceil, h0, Nat.add_zero]
      unfold u8c
      rfl
    · rw [if_pos (by omega)]
      have h1 : (needed % 2 ^ k + 2 ^ k - 1) / 2 ^ k = 1 := by
        have hs1 : needed % 2 ^ k + 2 ^ k - 1 = 2 ^ k * 1 + (needed % 2 ^ k - 1) := by omega
        rw [hs1, Nat.mul_add_div hpos]
        have : (needed % 2 ^ k - 1) / 2 ^ k = 0 := Nat.div_eq_of_lt (by omega)
        omega
      rw [hceil, h1]
      unfold u8c
      have hadd : (naive + 2 ^ k * (needed / 2 ^ k)) % 256 % 256 = (naive + 2 ^ k * (needed / 2 ^ k)) % 256 := Nat.mod_mod_of_dvd _ (dvd_refl 256)
      rw [Nat.mod_add_mod]
      have : naive + 2 ^ k * (needed / 2 ^ k) + 2 ^ k = naive + 2 ^ k * (needed / 2 ^ k + 1) := by ring
      rw [this]
  · left
    refine ⟨by omega, ?_⟩
    rw [if_neg hcase]

/-- C10: every alignment-math result is an 8-bit value: for every address,
u8 power-of-two alignment, and u8 header size, `alignForwardAdjustment` is
strictly below the alignment, and `alignForwardAdjustmentWithHeader` equals the
mathematically specified adjustment reduced modulo 256. -/
theorem c10_u8_wrap (addr k h : Nat) (hk : k ≤ 7) (hh : h < 256) :
    alignForwardAdjustment addr (2 ^ k) < 2 ^ k ∧
    alignForwardAdjustmentWithHeader addr (2 ^ k) h =
      mathAdjustmentWithHeader addr (2 ^ k) h % 256 := by
  have hspec := alignForwardAdjustment_spec addr k hk
  have heq := alignForwardAdjustment_eq addr k hk
  have h128 : 2 ^ k ≤ 128 := pow_le_128 k hk
  refine ⟨hspec.2.1, ?_⟩
  unfold mathAdjustmentWithHeader
  rcases afawh_cases addr k h hk hh with ⟨hge, hres⟩ | ⟨hlt, hres⟩
  · rw [hres, if_pos (by omega), ← heq]
    exact (Nat.mod_eq_of_lt (by omega)).symm
  · rw [hres, if_neg (by omega), ← heq]

/-- C10 witness: address 0, alignment 128, header size 255 — the specified
adjustment is 256 and the code returns `256 % 256 = 0`. -/
theorem c10_witness :
    alignForwardAdjustment 0 (2 ^ 7) < 2 ^ 7 ∧
    alignForwardAdjustmentWithHeader 0 (2 ^ 7) 255 =
      mathAdjustmentWithHeader 0 (2 ^ 7) 255 % 256 :=
  c10_u8_wrap 0 7 255 (by decide) (by decide)

/-- C3 counterexample: at address 0, alignment 128, header size 255, the
adjustment wraps modulo 256 to 0, which does not leave room for the header. -/
theorem c3_counterexample :
    alignForwardAdjustmentWithHeader 0 128 255 = 0 ∧
    ¬ 255 ≤ alignForwardAdjustmentWithHeader 0 128 255 := by decide

/-- C3 (amended): whenever `headerSize + alignment ≤ 256` (so the adjustment
cannot wrap modulo 256), `alignForwardAdjustmentWithHeader` returns an
adjustment that is at least `headerSize`, lands the adjusted address on an
alignment boundary, equals the naive adjustment when that already fits the
header, and otherwise equals the naive adjustment rounded up by whole
multiples of the alignment until it accommodates the header. -/
theorem c3_afawh_amended (addr k h : Nat) (hk : k ≤ 7) (hfit : h + 2 ^ k ≤ 256) :
    h ≤ alignForwardAdjustmentWithHeader addr (2 ^ k) h ∧
    (addr + alignForwardAdjustmentWithHeader addr (2 ^ k) h) % 2 ^ k = 0 ∧
    (h ≤ alignForwardAdjustment addr (2 ^ k) →
      alignForwardAdjustmentWithHeader addr (2 ^ k) h =
        alignForwardAdjustment addr (2 ^ k)) ∧
    (alignForwardAdjustment addr (2 ^ k) < h →
      alignForwardAdjustmentWithHeader addr (2 ^ k) h =
        alignForwardAdjustment addr (2 ^ k)
          + 2 ^ k * ((h - alignForwardAdjustment addr (2 ^ k) + 2 ^ k - 1) / 2 ^ k)) := by
  have hpos : 0 < 2 ^ k := Nat.pos_pow_of_pos k (by norm_num)
  have hspec := alignForwardAdjustment_spec addr k hk
  have hh : h < 256 := by omega
  set naive := alignForwardAdjustment addr (2 ^ k) with hnaive
  rcases afawh_cases addr k h hk hh with ⟨hge, hres⟩ | ⟨hlt, hres⟩
  · rw [hres]
    exact ⟨hge, hspec.1, fun _ => rfl, fun hc => absurd hc (by omega)⟩
  · set M := naive + 2 ^ k * ((h - naive + 2 ^ k - 1) / 2 ^ k) with hM
    have hdm : 2 ^ k * ((h - naive + 2 ^ k - 1) / 2 ^ k) + (h - naive + 2 ^ k - 1) % 2 ^ k
        = h - naive + 2 ^ k - 1 := Nat.div_add_mod _ (2 ^ k)
    have hrlt : (h - naive + 2 ^ k - 1) % 2 ^ k < 2 ^ k := Nat.mod_lt _ hpos
    have hMge : h ≤ M := by omega
    have hMlt : M < 256 := by omega
    have hres2 : alignForwardAdjustmentWithHeader addr (2 ^ k) h = M := by
      rw [hres, Nat.mod_eq_of_lt hMlt]
    refine ⟨by omega, ?_, fun hc => absurd hc (by omega), fun _ => hres2⟩
    rw [hres2, hM, ← Nat.add_assoc, Nat.add_mul_mod_self_left]
    exact hspec.1

/-- C3 witness: address 1, alignment 4, header size 9 — naive adjustment 3 is
rounded up to 11. -/
theorem c3_witness :
    9 ≤ alignForwardAdjustmentWithHeader 1 (2 ^ 2) 9 ∧
    (1 + alignForwardAdjustmentWithHeader 1 (2 ^ 2) 9) % 2 ^ 2 = 0 ∧
    (9 ≤ alignForwardAdjustment 1 (2 ^ 2) →
      alignForwardAdjustmentWithHeader 1 (2 ^ 2) 9 = alignForwardAdjustment 1 (2 ^ 2)) ∧
    (alignForwardAdjustment 1 (2 ^ 2) < 9 →
      alignForwardAdjustmentWithHeader 1 (2 ^ 2) 9 =
        alignForwardAdjustment 1 (2 ^ 2)
          + 2 ^ 2 * ((9 - alignForwardAdjustment 1 (2 ^ 2) + 2 ^ 2 - 1) / 2 ^ 2)) :=
  c3_afawh_amended 1 2 9 (by decide) (by decide)

end Note
